import Mathlib

/-!
Verification of the range-specification parser and positional extraction
engine of `src/8-cutr/src/lib.rs` (a `cut`-style selector).

Embedding conventions:
* Rust `&str` values are modelled as `List Char` (sequences of Unicode
  scalar values); raw bytes as `List Nat` (each < 256).
* `Range<usize>` is modelled by `Cutr.Range` with fields `start`/`stop`
  (`stop` stands for Rust's `end`, a Lean keyword).
* Fallible Rust functions returning `Result<T, String>` become
  `Except (List Char) T`; `unwrap()` is modelled by the `Panics` outcome
  type.
* The regex crate's `\d` is Unicode-aware (`\p{Nd}`). Inside
  `parse_index`'s `^\d*$` it is modelled as an ASCII digit, which is
  extensionally equivalent there (a non-ASCII `Nd` string passes the
  real regex but then fails `usize` parsing, yielding the same error);
  in the range regex `^(\d+)-(\d+)$`, where the distinction changes
  behaviour, it is modelled by the full `Nd` class (`isNd`).
-/

deriving instance DecidableEq for Except

namespace Cutr

/-- Model of Rust `Range<usize>`: half-open `[start, stop)`. -/
structure Range where
  start : Nat
  stop : Nat
deriving DecidableEq, Repr

/-- `type PositionList = Vec<Range<usize>>`. -/
abbrev PositionList := List Range

/-- The `Extract` enum of `lib.rs`. -/
inductive Extract where
  | Fields (l : PositionList)
  | Bytes (l : PositionList)
  | Chars (l : PositionList)
deriving DecidableEq, Repr

/-- Rust's `str::split(sep)`: splits on every occurrence of `sep`,
keeping empty pieces; splitting the empty string gives `[""]`. -/
def splitChar (sep : Char) : List Char → List (List Char)
  | [] => [[]]
  | c :: rest =>
    match splitChar sep rest with
    | [] => if c = sep then [[], []] else [[c]]
    | s :: ss => if c = sep then [] :: s :: ss else (c :: s) :: ss

/-- Whether every character is an ASCII decimal digit (the regex
`^\d*$`; matches the empty string). -/
def isDigits (s : List Char) : Bool := s.all Char.isDigit

/-- Numeric value of a decimal digit string. -/
def digitsVal (s : List Char) : Nat :=
  s.foldl (fun acc c => acc * 10 + (c.toNat - 48)) 0

/-- `usize::MAX` on the 64-bit targets this crate builds for. -/
def usizeMax : Nat := 2 ^ 64 - 1

/-- Core of Rust's `usize::from_str` on an unsigned digit body:
requires a nonempty all-digit string whose value fits in `usize`
(overflow is a parse failure, not a wraparound). -/
def parseDigits (s : List Char) : Option Nat :=
  if s ≠ [] ∧ isDigits s ∧ digitsVal s ≤ usizeMax then some (digitsVal s) else none

/-- Rust's `usize::from_str`: an optional leading `+` followed by
digits. -/
def parseUsize (s : List Char) : Option Nat :=
  match s with
  | '+' :: rest => parseDigits rest
  | _ => parseDigits s

/-- Rust's `NonZeroUsize::from_str`: parse as `usize`, then reject 0. -/
def parseNonZeroUsize (s : List Char) : Option Nat :=
  match parseUsize s with
  | some n => if n = 0 then none else some n
  | none => none

/-- The error string `format!("illegal list value: {}", input)`. -/
def illegalMsg (input : List Char) : List Char :=
  "illegal list value: ".toList ++ input

/-- The error string of the `n1 >= n2` branch of `parse_pos`
(arguments are the stored zero-based indices, printed 1-based). -/
def rangeOrderMsg (n1 n2 : Nat) : List Char :=
  "First number in range (".toList ++ (Nat.repr (n1 + 1)).toList
    ++ ") must be lower than the second number (".toList
    ++ (Nat.repr (n2 + 1)).toList ++ ")".toList

/-- `parse_index` of `lib.rs`: rejects input not matching `^\d*$`,
then parses as `NonZeroUsize` and subtracts one. -/
def parse_index (input : List Char) : Except (List Char) Nat :=
  if ¬ isDigits input then .error (illegalMsg input)
  else
    match parseNonZeroUsize input with
    | some n => .ok (n - 1)
    | none => .error (illegalMsg input)

/-- Start and length of each maximal run of non-ASCII code points in
the Unicode `Nd` (decimal number) category, Unicode 15.0 — the class
matched by the regex crate's default Unicode-aware `\d`, beyond the
ASCII digits. -/
def ndExtraRanges : List (Nat × Nat) :=
  [(0x660, 10), (0x6F0, 10), (0x7C0, 10), (0x966, 10),
   (0x9E6, 10), (0xA66, 10), (0xAE6, 10), (0xB66, 10),
   (0xBE6, 10), (0xC66, 10), (0xCE6, 10), (0xD66, 10),
   (0xDE6, 10), (0xE50, 10), (0xED0, 10), (0xF20, 10),
   (0x1040, 10), (0x1090, 10), (0x17E0, 10), (0x1810, 10),
   (0x1946, 10), (0x19D0, 10), (0x1A80, 10), (0x1A90, 10),
   (0x1B50, 10), (0x1BB0, 10), (0x1C40, 10), (0x1C50, 10),
   (0xA620, 10), (0xA8D0, 10), (0xA900, 10), (0xA9D0, 10),
   (0xA9F0, 10), (0xAA50, 10), (0xABF0, 10), (0xFF10, 10),
   (0x104A0, 10), (0x10D30, 10), (0x11066, 10), (0x110F0, 10),
   (0x11136, 10), (0x111D0, 10), (0x112F0, 10), (0x11450, 10),
   (0x114D0, 10), (0x11650, 10), (0x116C0, 10), (0x11730, 10),
   (0x118E0, 10), (0x11950, 10), (0x11C50, 10), (0x11D50, 10),
   (0x11DA0, 10), (0x11F50, 10), (0x16A60, 10), (0x16AC0, 10),
   (0x16B50, 10), (0x1D7CE, 50), (0x1E140, 10), (0x1E2F0, 10),
   (0x1E4F0, 10), (0x1E950, 10), (0x1FBF0, 10)]

/-- The regex crate's `\d` (`\p{Nd}`): an ASCII digit or a code point
in one of the other `Nd` runs. -/
def isNd (c : Char) : Bool :=
  c.isDigit || ndExtraRanges.any (fun p => p.1 ≤ c.toNat && c.toNat < p.1 + p.2)

/-- The capture groups of the regex `^(\d+)-(\d+)$`: the clause must
split on `-` into exactly two nonempty parts made of Unicode decimal
digits (`\p{Nd}`, the regex crate's Unicode-aware `\d`). -/
def rangeCaptures (s : List Char) : Option (List Char × List Char) :=
  match splitChar '-' s with
  | [a, b] =>
    if a ≠ [] ∧ b ≠ [] ∧ a.all isNd ∧ b.all isNd then some (a, b) else none
  | _ => none

/-- The per-clause closure inside `parse_pos`: try `parse_index`,
otherwise try the `N1-N2` range shape (reporting the original error
when the regex does not match). -/
def parseClause (val : List Char) : Except (List Char) Range :=
  match parse_index val with
  | .ok n => .ok ⟨n, n + 1⟩
  | .error e =>
    match rangeCaptures val with
    | none => .error e
    | some (a, b) =>
      match parse_index a with
      | .error e1 => .error e1
      | .ok n1 =>
        match parse_index b with
        | .error e2 => .error e2
        | .ok n2 =>
          if n1 ≥ n2 then .error (rangeOrderMsg n1 n2)
          else .ok ⟨n1, n2 + 1⟩

/-- Rust's `Iterator::collect::<Result<Vec<_>, _>>()`: first error
wins, otherwise the list of successes in order. -/
def collectExcept (f : α → Except ε β) : List α → Except ε (List β)
  | [] => .ok []
  | a :: as =>
    match f a with
    | .error e => .error e
    | .ok b =>
      match collectExcept f as with
      | .error e => .error e
      | .ok bs => .ok (b :: bs)

/-- `parse_pos` of `lib.rs`: split the spec on commas and parse each
clause, failing fast. -/
def parse_pos (range : List Char) : Except (List Char) PositionList :=
  collectExcept parseClause (splitChar ',' range)

/-- Outcome of a Rust computation that may panic (via `unwrap()`). -/
inductive Panics (α : Type) where
  | panicked (msg : List Char)
  | ret (a : α)
deriving DecidableEq, Repr

/-- Rust's `Result::unwrap()`: the value, or a panic carrying the error. -/
def unwrapExcept : Except (List Char) α → Panics α
  | .error e => .panicked e
  | .ok a => .ret a

/-- `parse_bytes` of `lib.rs`: `Ok(Extract::Bytes(parse_pos(input).unwrap()))`. -/
def parse_bytes (input : List Char) : Panics (Except (List Char) Extract) :=
  match unwrapExcept (parse_pos input) with
  | .panicked e => .panicked e
  | .ret l => .ret (.ok (.Bytes l))

/-- `parse_chars` of `lib.rs`. -/
def parse_chars (input : List Char) : Panics (Except (List Char) Extract) :=
  match unwrapExcept (parse_pos input) with
  | .panicked e => .panicked e
  | .ret l => .ret (.ok (.Chars l))

/-- `parse_fields` of `lib.rs`. -/
def parse_fields (input : List Char) : Panics (Except (List Char) Extract) :=
  match unwrapExcept (parse_pos input) with
  | .panicked e => .panicked e
  | .ret l => .ret (.ok (.Fields l))

/-- Iteration of a Rust `Range<usize>`: the offsets
`start, start+1, ..., stop-1` (empty when `start ≥ stop`). -/
def rangeOffsets (r : Range) : List Nat :=
  List.range' r.start (r.stop - r.start)

/-- `extract_chars` of `lib.rs`: for each range, keep the characters
found at its offsets (`range.filter_map(|i| chars.get(i))`). -/
def extract_chars (line : List Char) (char_pos : PositionList) : List Char :=
  char_pos.flatMap fun r => (rangeOffsets r).filterMap fun i => line.get? i

/-- `extract_fields` of `lib.rs`: same walk over a decoded record. -/
def extract_fields (record : List (List Char)) (field_pos : PositionList) :
    List (List Char) :=
  field_pos.flatMap fun r => (rangeOffsets r).filterMap fun i => record.get? i

/-- The `selected` vector inside `extract_bytes` of `lib.rs`: same walk
over the line's bytes. -/
def selectedBytes (bytes : List Nat) (byte_pos : PositionList) : List Nat :=
  byte_pos.flatMap fun r => (rangeOffsets r).filterMap fun i => bytes.get? i

/-- Whether a byte is a UTF-8 continuation byte (`0x80..=0xBF`). -/
def isCont (b : Nat) : Bool := 0x80 ≤ b && b < 0xC0

/-- U+FFFD REPLACEMENT CHARACTER, emitted by lossy decoding. -/
def replacementChar : Char := Char.ofNat 0xFFFD

/-- Valid range check for the first continuation byte after a three-byte
lead (excludes overlong forms and surrogates, as Rust does). -/
def cont1Ok3 (b b1 : Nat) : Bool :=
  if b = 0xE0 then 0xA0 ≤ b1 && b1 ≤ 0xBF
  else if b = 0xED then 0x80 ≤ b1 && b1 ≤ 0x9F
  else isCont b1

/-- Valid range check for the first continuation byte after a four-byte
lead (excludes overlong forms and values above U+10FFFF, as Rust does). -/
def cont1Ok4 (b b1 : Nat) : Bool :=
  if b = 0xF0 then 0x90 ≤ b1 && b1 ≤ 0xBF
  else if b = 0xF4 then 0x80 ≤ b1 && b1 ≤ 0x8F
  else isCont b1

/-- Rust's `String::from_utf8_lossy`: decode UTF-8, replacing each
maximal subpart of an ill-formed sequence with U+FFFD. -/
def from_utf8_lossy : List Nat → List Char
  | [] => []
  | b :: rest =>
    if b < 0x80 then Char.ofNat b :: from_utf8_lossy rest
    else if 0xC2 ≤ b && b ≤ 0xDF then
      match rest with
      | [] => [replacementChar]
      | b1 :: rest1 =>
        if isCont b1 then
          Char.ofNat ((b - 0xC0) * 0x40 + (b1 - 0x80)) :: from_utf8_lossy rest1
        else replacementChar :: from_utf8_lossy (b1 :: rest1)
    else if 0xE0 ≤ b && b ≤ 0xEF then
      match rest with
      | [] => [replacementChar]
      | b1 :: rest1 =>
        if cont1Ok3 b b1 then
          match rest1 with
          | [] => [replacementChar]
          | b2 :: rest2 =>
            if isCont b2 then
              Char.ofNat ((b - 0xE0) * 0x1000 + (b1 - 0x80) * 0x40 + (b2 - 0x80))
                :: from_utf8_lossy rest2
            else replacementChar :: from_utf8_lossy (b2 :: rest2)
        else replacementChar :: from_utf8_lossy (b1 :: rest1)
    else if 0xF0 ≤ b && b ≤ 0xF4 then
      match rest with
      | [] => [replacementChar]
      | b1 :: rest1 =>
        if cont1Ok4 b b1 then
          match rest1 with
          | [] => [replacementChar]
          | b2 :: rest2 =>
            if isCont b2 then
              match rest2 with
              | [] => [replacementChar]
              | b3 :: rest3 =>
                if isCont b3 then
                  Char.ofNat ((b - 0xF0) * 0x40000 + (b1 - 0x80) * 0x1000
                      + (b2 - 0x80) * 0x40 + (b3 - 0x80))
                    :: from_utf8_lossy rest3
                else replacementChar :: from_utf8_lossy (b3 :: rest3)
            else replacementChar :: from_utf8_lossy (b2 :: rest2)
        else replacementChar :: from_utf8_lossy (b1 :: rest1)
    else replacementChar :: from_utf8_lossy rest

/-- `extract_bytes` of `lib.rs`: select bytes, then decode the selection
lossily. -/
def extract_bytes (line : List Nat) (byte_pos : PositionList) : List Char :=
  from_utf8_lossy (selectedBytes line byte_pos)

/-- UTF-8 encoding of one Unicode scalar value (Rust `str::as_bytes`,
per character). -/
def utf8EncodeChar (c : Char) : List Nat :=
  let n := c.toNat
  if n < 0x80 then [n]
  else if n < 0x800 then [0xC0 + n / 0x40, 0x80 + n % 0x40]
  else if n < 0x10000 then
    [0xE0 + n / 0x1000, 0x80 + (n / 0x40) % 0x40, 0x80 + n % 0x40]
  else
    [0xF0 + n / 0x40000, 0x80 + (n / 0x1000) % 0x40,
     0x80 + (n / 0x40) % 0x40, 0x80 + n % 0x40]

/-- UTF-8 encoding of a string (Rust `str::as_bytes`). -/
def utf8Encode (s : List Char) : List Nat := s.flatMap utf8EncodeChar

/-- Join pieces with a separator character (left inverse of `splitChar`). -/
def joinSep (sep : Char) : List (List Char) → List Char
  | [] => []
  | [s] => s
  | s :: rest => s ++ sep :: joinSep sep rest

/-- Whether a `parse_pos` outcome is an illegal-list-value error, i.e.
an error whose message starts with the text `illegal list value: `. -/
def isIllegalValueError : Except (List Char) PositionList → Bool
  | .error e => "illegal list value: ".toList.isPrefixOf e
  | .ok _ => false

/-- Spec §4.2 "range walk", inner loop: visit offsets `i, i+1, ...`
below `stop` in ascending order; at each offset append the unit found
there, or nothing when the offset is at or beyond the input's length. -/
def walkOffsets (coll : List α) (i stop : Nat) : List α :=
  if i < stop then
    (match coll.get? i with
     | some x => [x]
     | none => []) ++ walkOffsets coll (i + 1) stop
  else []
termination_by stop - i

/-- Spec §4.2 "range walk", outer loop: visit the ranges of the
`PositionList` in stored order, concatenating each range's walk.
This definition follows the spec's words; the theorems below compare
it against the extractors translated from the source. -/
def specRangeWalk (coll : List α) : PositionList → List α
  | [] => []
  | r :: rest => walkOffsets coll r.start r.stop ++ specRangeWalk coll rest

end Cutr

-- sanity examples while developing
example : Cutr.parse_pos "1".toList = .ok [⟨0, 1⟩] := by decide
example : Cutr.parse_pos "3-5".toList = .ok [⟨2, 5⟩] := by decide
example : Cutr.parse_pos "3,1".toList = .ok [⟨2, 3⟩, ⟨0, 1⟩] := by decide
example : Cutr.parse_pos "0".toList = .error (Cutr.illegalMsg "0".toList) := by decide
example : Cutr.parse_pos "0-3".toList = .error (Cutr.illegalMsg "0".toList) := by decide
example : Cutr.parse_pos "٣-٥".toList = .error (Cutr.illegalMsg "٣".toList) := by decide
example : Cutr.parse_pos "5-2".toList =
    .error "First number in range (5) must be lower than the second number (2)".toList := by decide
example : Cutr.extract_chars "ab".toList [⟨0, 1⟩, ⟨5, 6⟩] = "a".toList := by decide
example : Cutr.extract_bytes (Cutr.utf8Encode "hello".toList) [⟨0, 1⟩, ⟨3, 5⟩]
    = "hlo".toList := by decide
example : Cutr.extract_bytes (Cutr.utf8Encode "é".toList) [⟨0, 1⟩]
    = [Cutr.replacementChar] := by decide

namespace Cutr

theorem splitChar_cons (sep c : Char) (rest s : List Char) (ss : List (List Char))
    (h : splitChar sep rest = s :: ss) :
    splitChar sep (c :: rest) = if c = sep then [] :: s :: ss else (c :: s) :: ss := by
  rw [splitChar, h]

theorem splitChar_ne_nil (sep : Char) (s : List Char) : splitChar sep s ≠ [] := by
  induction s with
  | nil => simp [splitChar]
  | cons c rest ih =>
    rcases h : splitChar sep rest with _ | ⟨s', ss⟩
    · exact absurd h ih
    · rw [splitChar_cons sep c rest s' ss h]
      split <;> simp

theorem joinSep_cons (sep c : Char) (s : List Char) (ss : List (List Char)) :
    joinSep sep ((c :: s) :: ss) = c :: joinSep sep (s :: ss) := by
  cases ss <;> simp [joinSep]

theorem joinSep_splitChar (sep : Char) (s : List Char) :
    joinSep sep (splitChar sep s) = s := by
  induction s with
  | nil => simp [splitChar, joinSep]
  | cons c rest ih =>
    rcases h : splitChar sep rest with _ | ⟨s', ss⟩
    · exact absurd h (splitChar_ne_nil sep rest)
    · rw [h] at ih
      rw [splitChar_cons sep c rest s' ss h]
      by_cases hc : c = sep
      · subst hc
        rw [if_pos rfl]
        simpa [joinSep] using ih
      · rw [if_neg hc, joinSep_cons, ih]

theorem splitChar_of_not_mem (sep : Char) (s : List Char) (h : sep ∉ s) :
    splitChar sep s = [s] := by
  induction s with
  | nil => rfl
  | cons c rest ih =>
    have hrest := ih (fun hm => h (List.mem_cons_of_mem _ hm))
    have hc : ¬ c = sep := fun e => h (e ▸ List.mem_cons_self c rest)
    rw [splitChar_cons sep c rest rest [] hrest, if_neg hc]

theorem splitChar_append_cons (sep : Char) (s1 s2 : List Char) (h : sep ∉ s1) :
    splitChar sep (s1 ++ sep :: s2) = s1 :: splitChar sep s2 := by
  induction s1 with
  | nil =>
    simp only [List.nil_append]
    rcases h2 : splitChar sep s2 with _ | ⟨s', ss⟩
    · exact absurd h2 (splitChar_ne_nil sep s2)
    · rw [splitChar_cons sep sep s2 s' ss h2, if_pos rfl]
  | cons c s1' ih =>
    have htl := ih (fun hm => h (List.mem_cons_of_mem _ hm))
    have hc : ¬ c = sep := fun e => h (e ▸ List.mem_cons_self c s1')
    rcases h2 : splitChar sep s2 with _ | ⟨s', ss⟩
    · exact absurd h2 (splitChar_ne_nil sep s2)
    · rw [h2] at htl
      simp only [List.cons_append]
      rw [splitChar_cons sep c (s1' ++ sep :: s2) s1' (s' :: ss) htl, if_neg hc]

theorem splitChar_joinSep (sep : Char) (clauses : List (List Char))
    (hne : clauses ≠ []) (hfree : ∀ c ∈ clauses, sep ∉ c) :
    splitChar sep (joinSep sep clauses) = clauses := by
  induction clauses with
  | nil => exact absurd rfl hne
  | cons c rest ih =>
    cases rest with
    | nil =>
      simp only [joinSep]
      exact splitChar_of_not_mem sep c (hfree c (List.mem_cons_self _ _))
    | cons d rest' =>
      rw [show joinSep sep (c :: d :: rest') = c ++ sep :: joinSep sep (d :: rest') from rfl]
      rw [splitChar_append_cons sep c _ (hfree c (List.mem_cons_self _ _))]
      rw [ih (by simp) (fun x hx => hfree x (List.mem_cons_of_mem _ hx))]

end Cutr

namespace Cutr

theorem mem_isDigit {s : List Char} (h : isDigits s = true) {c : Char} (hm : c ∈ s) :
    c.isDigit = true := by
  simp only [isDigits, List.all_eq_true] at h
  exact h c hm

theorem not_mem_of_isDigits {s : List Char} (h : isDigits s = true) {c : Char}
    (hc : c.isDigit = false) : c ∉ s := by
  intro hm
  rw [mem_isDigit h hm] at hc
  exact absurd hc (by decide)

theorem mem_isNd {s : List Char} (h : s.all isNd = true) {c : Char} (hm : c ∈ s) :
    isNd c = true := by
  simp only [List.all_eq_true] at h
  exact h c hm

theorem all_isNd_of_isDigits {s : List Char} (h : isDigits s = true) :
    s.all isNd = true := by
  simp only [isDigits, List.all_eq_true] at h
  simp only [List.all_eq_true]
  intro c hc
  simp [isNd, h c hc]

theorem digitsVal_pos_ne_nil {s : List Char} (h : 0 < digitsVal s) : s ≠ [] := by
  intro hn
  subst hn
  simp [digitsVal] at h

theorem parseUsize_eq (s : List Char) (h1 : s ≠ []) (h2 : isDigits s = true) :
    parseUsize s = parseDigits s := by
  cases s with
  | nil => exact absurd rfl h1
  | cons c r =>
    have hc : c.isDigit = true := mem_isDigit h2 (List.mem_cons_self c r)
    have hne : c ≠ '+' := by
      intro e
      rw [e] at hc
      exact absurd hc (by decide)
    unfold parseUsize
    split
    · rename_i rest heq
      injection heq with e1 e2
      exact absurd e1 hne
    · rfl

theorem parse_index_ok (s : List Char) (h2 : isDigits s = true) (h3 : 0 < digitsVal s)
    (hb : digitsVal s ≤ usizeMax) :
    parse_index s = .ok (digitsVal s - 1) := by
  have h1 : s ≠ [] := digitsVal_pos_ne_nil h3
  unfold parse_index
  rw [if_neg (by simp [h2])]
  unfold parseNonZeroUsize
  rw [parseUsize_eq s h1 h2]
  unfold parseDigits
  rw [if_pos ⟨h1, h2, hb⟩]
  have : ¬ digitsVal s = 0 := Nat.pos_iff_ne_zero.mp h3
  simp [this]

theorem parse_index_err_not_digits (s : List Char) (h : isDigits s = false) :
    parse_index s = .error (illegalMsg s) := by
  unfold parse_index
  rw [if_pos (by simp [h])]

theorem parse_index_err_zero (s : List Char) (h2 : isDigits s = true)
    (h0 : digitsVal s = 0) : parse_index s = .error (illegalMsg s) := by
  by_cases h1 : s = []
  · subst h1
    decide
  · unfold parse_index
    rw [if_neg (by simp [h2])]
    unfold parseNonZeroUsize
    rw [parseUsize_eq s h1 h2]
    unfold parseDigits
    rw [if_pos ⟨h1, h2, by rw [h0]; exact Nat.zero_le _⟩]
    simp [h0]

theorem rangeCaptures_of_no_dash (s : List Char) (h : '-' ∉ s) :
    rangeCaptures s = none := by
  unfold rangeCaptures
  rw [splitChar_of_not_mem _ _ h]

theorem rangeCaptures_dash (s1 s2 : List Char)
    (hd1 : s1 ≠ []) (hd2 : s2 ≠ []) (hD1 : isDigits s1 = true) (hD2 : isDigits s2 = true) :
    rangeCaptures (s1 ++ '-' :: s2) = some (s1, s2) := by
  have h1 : '-' ∉ s1 := not_mem_of_isDigits hD1 (by decide)
  have h2 : '-' ∉ s2 := not_mem_of_isDigits hD2 (by decide)
  unfold rangeCaptures
  rw [splitChar_append_cons _ _ _ h1, splitChar_of_not_mem _ _ h2]
  exact if_pos ⟨hd1, hd2, all_isNd_of_isDigits hD1, all_isNd_of_isDigits hD2⟩

end Cutr

namespace Cutr

theorem parseClause_bare (s : List Char) (h2 : isDigits s = true) (h3 : 0 < digitsVal s)
    (hb : digitsVal s ≤ usizeMax) :
    parseClause s = .ok ⟨digitsVal s - 1, digitsVal s⟩ := by
  simp only [parseClause, parse_index_ok s h2 h3 hb]
  have h : digitsVal s - 1 + 1 = digitsVal s := by omega
  rw [h]

theorem parseClause_range (s1 s2 : List Char)
    (hD1 : isDigits s1 = true) (hD2 : isDigits s2 = true)
    (h1 : 0 < digitsVal s1) (h12 : digitsVal s1 < digitsVal s2)
    (hb2 : digitsVal s2 ≤ usizeMax) :
    parseClause (s1 ++ '-' :: s2) = .ok ⟨digitsVal s1 - 1, digitsVal s2⟩ := by
  have h02 : 0 < digitsVal s2 := Nat.lt_trans h1 h12
  have hb1 : digitsVal s1 ≤ usizeMax := Nat.le_of_lt (Nat.lt_of_lt_of_le h12 hb2)
  have hne1 : s1 ≠ [] := digitsVal_pos_ne_nil h1
  have hne2 : s2 ≠ [] := digitsVal_pos_ne_nil h02
  have hdash : ('-' : Char).isDigit = false := by decide
  have hDall : isDigits (s1 ++ '-' :: s2) = false := by
    simp [isDigits, List.all_append, hdash]
  simp only [parseClause, parse_index_err_not_digits _ hDall,
    rangeCaptures_dash s1 s2 hne1 hne2 hD1 hD2,
    parse_index_ok s1 hD1 h1 hb1, parse_index_ok s2 hD2 h02 hb2]
  rw [if_neg (by omega)]
  have h : digitsVal s2 - 1 + 1 = digitsVal s2 := by omega
  rw [h]

theorem parse_index_ok_isDigits {s : List Char} {n : Nat}
    (h : parse_index s = .ok n) : isDigits s = true := by
  by_cases hd : isDigits s
  · exact hd
  · rw [parse_index_err_not_digits s (by simpa using hd)] at h
    exact absurd h (by simp)

theorem rangeCaptures_some_shape {s a b : List Char}
    (h : rangeCaptures s = some (a, b)) :
    s = a ++ '-' :: b ∧ a.all isNd = true ∧ b.all isNd = true := by
  unfold rangeCaptures at h
  split at h
  · rename_i a' b' heq
    split at h
    · rename_i hcond
      injection h with h'
      rw [Prod.mk.injEq] at h'
      obtain ⟨rfl, rfl⟩ := h'
      have hj := joinSep_splitChar '-' s
      rw [heq] at hj
      simp only [joinSep] at hj
      exact ⟨hj.symm, hcond.2.2.1, hcond.2.2.2⟩
    · exact absurd h (by simp)
  · exact absurd h (by simp)

end Cutr

namespace Cutr

theorem parseClause_ok_start_lt_stop {c : List Char} {r : Range}
    (h : parseClause c = .ok r) : r.start < r.stop := by
  unfold parseClause at h
  cases hpi : parse_index c with
  | ok n =>
    rw [hpi] at h
    simp only [Except.ok.injEq] at h
    subst h
    simp
  | error e =>
    rw [hpi] at h
    dsimp only at h
    cases hrc : rangeCaptures c with
    | none =>
      rw [hrc] at h
      exact absurd h (by simp)
    | some ab =>
      obtain ⟨a, b⟩ := ab
      rw [hrc] at h
      dsimp only at h
      cases ha : parse_index a with
      | error e1 =>
        rw [ha] at h
        exact absurd h (by simp)
      | ok n1 =>
        rw [ha] at h
        dsimp only at h
        cases hb : parse_index b with
        | error e2 =>
          rw [hb] at h
          exact absurd h (by simp)
        | ok n2 =>
          rw [hb] at h
          dsimp only at h
          by_cases hge : n1 ≥ n2
          · rw [if_pos hge] at h
            exact absurd h (by simp)
          · rw [if_neg hge] at h
            simp only [Except.ok.injEq] at h
            subst h
            simp only []
            omega

theorem parseClause_ok_chars {c : List Char} {r : Range}
    (h : parseClause c = .ok r) : ∀ ch ∈ c, isNd ch = true ∨ ch = '-' := by
  unfold parseClause at h
  cases hpi : parse_index c with
  | ok n =>
    intro ch hm
    exact Or.inl (by simp [isNd, mem_isDigit (parse_index_ok_isDigits hpi) hm])
  | error e =>
    rw [hpi] at h
    cases hrc : rangeCaptures c with
    | none =>
      rw [hrc] at h
      exact absurd h (by simp)
    | some ab =>
      obtain ⟨a, b⟩ := ab
      obtain ⟨hshape, hda, hdb⟩ := rangeCaptures_some_shape hrc
      intro ch hm
      rw [hshape] at hm
      rcases List.mem_append.mp hm with hma | hmb
      · exact Or.inl (mem_isNd hda hma)
      · rcases List.mem_cons.mp hmb with he | hmb'
        · exact Or.inr he
        · exact Or.inl (mem_isNd hdb hmb')

theorem parseClause_ok_comma_not_mem {c : List Char} {r : Range}
    (h : parseClause c = .ok r) : ',' ∉ c := by
  intro hm
  rcases parseClause_ok_chars h ',' hm with hd | he
  · exact absurd hd (by decide)
  · exact absurd he (by decide)

theorem collectExcept_forall₂ {f : α → Except ε β} {l : List α} {bs : List β}
    (h : List.Forall₂ (fun a b => f a = .ok b) l bs) :
    collectExcept f l = .ok bs := by
  induction h with
  | nil => rfl
  | cons hab htl ih => simp only [collectExcept, hab, ih]

theorem collectExcept_ok_forall₂ {f : α → Except ε β} :
    ∀ {l : List α} {bs : List β}, collectExcept f l = .ok bs →
      List.Forall₂ (fun a b => f a = .ok b) l bs := by
  intro l
  induction l with
  | nil =>
    intro bs h
    simp only [collectExcept, Except.ok.injEq] at h
    subst h
    exact List.Forall₂.nil
  | cons a as ih =>
    intro bs h
    unfold collectExcept at h
    cases hfa : f a with
    | error e =>
      rw [hfa] at h
      exact absurd h (by simp)
    | ok b =>
      rw [hfa] at h
      cases hrec : collectExcept f as with
      | error e =>
        rw [hrec] at h
        exact absurd h (by simp)
      | ok bs' =>
        rw [hrec] at h
        simp only [Except.ok.injEq] at h
        subst h
        exact List.Forall₂.cons hfa (ih hrec)

theorem forall₂_mem_left {R : α → β → Prop} :
    ∀ {l : List α} {bs : List β}, List.Forall₂ R l bs →
      ∀ {a}, a ∈ l → ∃ b, b ∈ bs ∧ R a b := by
  intro l bs h
  induction h with
  | nil =>
    intro a ha
    exact absurd ha (by simp)
  | cons hab htl ih =>
    intro a ha
    rcases List.mem_cons.mp ha with rfl | ha'
    · exact ⟨_, List.mem_cons_self _ _, hab⟩
    · obtain ⟨b, hb, hr⟩ := ih ha'
      exact ⟨b, List.mem_cons_of_mem _ hb, hr⟩

theorem collectExcept_err_first {f : α → Except ε β} (pre : List α) (bad : α)
    (rest : List α) (e : ε) (hpre : ∀ a ∈ pre, (f a).isOk = true)
    (hbad : f bad = .error e) :
    collectExcept f (pre ++ bad :: rest) = .error e := by
  induction pre with
  | nil => simp only [List.nil_append, collectExcept, hbad]
  | cons p pre' ih =>
    have hp : (f p).isOk = true := hpre p (List.mem_cons_self _ _)
    cases hfp : f p with
    | error e' =>
      rw [hfp] at hp
      exact absurd hp (by simp [Except.isOk, Except.toBool])
    | ok b =>
      simp only [List.cons_append, collectExcept, hfp, List.append_eq]
      rw [ih (fun a ha => hpre a (List.mem_cons_of_mem _ ha))]

theorem collectExcept_err_of_mem {f : α → Except ε β} {l : List α} {a : α}
    (ha : a ∈ l) {e : ε} (hfa : f a = .error e) :
    ∃ e', collectExcept f l = .error e' := by
  cases hres : collectExcept f l with
  | error e' => exact ⟨e', rfl⟩
  | ok bs =>
    obtain ⟨b, _, hr⟩ := forall₂_mem_left (collectExcept_ok_forall₂ hres) ha
    rw [hfa] at hr
    exact absurd hr (by simp)

end Cutr

namespace Cutr

theorem walkOffsets_of_le (coll : List α) {i stop : Nat} (h : stop ≤ i) :
    walkOffsets coll i stop = [] := by
  unfold walkOffsets
  rw [if_neg (by omega)]

theorem filterMap_range'_eq_walkOffsets (coll : List α) :
    ∀ (n i : Nat),
      (List.range' i n).filterMap (fun j => coll.get? j) = walkOffsets coll i (i + n) := by
  intro n
  induction n with
  | zero =>
    intro i
    rw [walkOffsets_of_le coll (show i + 0 ≤ i by omega)]
    rfl
  | succ n ihn =>
    intro i
    rw [List.range'_succ, List.filterMap_cons]
    rw [walkOffsets, if_pos (by omega)]
    have hrec := ihn (i + 1)
    rw [show i + 1 + n = i + (n + 1) from by omega] at hrec
    rw [← hrec]
    cases h : coll.get? i <;> simp

theorem selectRange_eq_walkOffsets (coll : List α) (r : Range) :
    (rangeOffsets r).filterMap (fun j => coll.get? j) =
      walkOffsets coll r.start r.stop := by
  unfold rangeOffsets
  rcases le_or_lt r.start r.stop with h | h
  · have hrec := filterMap_range'_eq_walkOffsets coll (r.stop - r.start) r.start
    rw [show r.start + (r.stop - r.start) = r.stop from by omega] at hrec
    exact hrec
  · rw [show r.stop - r.start = 0 from by omega]
    simp [walkOffsets_of_le coll (Nat.le_of_lt h)]

theorem flatMap_eq_specRangeWalk (coll : List α) (pos : PositionList) :
    (pos.flatMap fun r => (rangeOffsets r).filterMap fun i => coll.get? i) =
      specRangeWalk coll pos := by
  induction pos with
  | nil => rfl
  | cons r rest ih =>
    rw [List.flatMap_cons, specRangeWalk, selectRange_eq_walkOffsets coll r, ih]

theorem filterMap_get?_shift (a : α) (l : List α) :
    ∀ (n i : Nat),
      (List.range' (i + 1) n).filterMap (fun j => (a :: l).get? j) =
        (List.range' i n).filterMap (fun j => l.get? j) := by
  intro n
  induction n with
  | zero => intro i; rfl
  | succ n ihn =>
    intro i
    rw [List.range'_succ, List.range'_succ, List.filterMap_cons, List.filterMap_cons]
    rw [List.get?_cons_succ, ihn (i + 1)]

theorem filterMap_get?_range'_self (l : List α) :
    (List.range' 0 l.length).filterMap (fun i => l.get? i) = l := by
  induction l with
  | nil => rfl
  | cons a l ih =>
    rw [List.length_cons, List.range'_succ, List.filterMap_cons]
    rw [show (0 : Nat) + 1 = 1 from rfl]
    rw [show ((1 : Nat) = 0 + 1) from rfl, filterMap_get?_shift a l l.length 0, ih]
    rfl

end Cutr

namespace Cutr

theorem parse_pos_single_ok {c : List Char} {r : Range} (hc : ',' ∉ c)
    (h : parseClause c = .ok r) : parse_pos c = .ok [r] := by
  unfold parse_pos
  rw [splitChar_of_not_mem _ _ hc]
  simp only [collectExcept, h]

theorem parse_pos_single_err {c e : List Char} (hc : ',' ∉ c)
    (h : parseClause c = .error e) : parse_pos c = .error e := by
  unfold parse_pos
  rw [splitChar_of_not_mem _ _ hc]
  simp only [collectExcept, h]

/-- C1: for every syntactically valid clause, `parse_pos` converts
1-based input to 0-based half-open ranges: a bare positive number `N`
(written as a digit string of value `N`) yields `[N-1, N)`, and a range
clause `N1-N2` yields `[N1-1, N2)`; in particular `parse_pos "1"` is
`[[0,1)]` and `parse_pos "3-5"` is `[[2,5)]`. -/
theorem C1_parse_pos_one_based_conversion :
    (∀ s : List Char, isDigits s = true → 0 < digitsVal s →
        digitsVal s ≤ usizeMax →
        parse_pos s = .ok [⟨digitsVal s - 1, digitsVal s⟩]) ∧
    (∀ s1 s2 : List Char, isDigits s1 = true → isDigits s2 = true →
        0 < digitsVal s1 → digitsVal s1 < digitsVal s2 →
        digitsVal s2 ≤ usizeMax →
        parse_pos (s1 ++ '-' :: s2) = .ok [⟨digitsVal s1 - 1, digitsVal s2⟩]) ∧
    parse_pos "1".toList = .ok [⟨0, 1⟩] ∧
    parse_pos "3-5".toList = .ok [⟨2, 5⟩] := by
  refine ⟨?_, ?_, by decide, by decide⟩
  · intro s h2 h3 hb
    have hcm : ',' ∉ s := not_mem_of_isDigits h2 (by decide)
    exact parse_pos_single_ok hcm (parseClause_bare s h2 h3 hb)
  · intro s1 s2 hD1 hD2 h1 h12 hb2
    have hcl := parseClause_range s1 s2 hD1 hD2 h1 h12 hb2
    have hcm : ',' ∉ (s1 ++ '-' :: s2) := parseClause_ok_comma_not_mem hcl
    exact parse_pos_single_ok hcm hcl

/-- Witness for C1 at the concrete clauses `12` and `3-7`. -/
theorem C1_witness :
    parse_pos "12".toList
      = .ok [⟨digitsVal "12".toList - 1, digitsVal "12".toList⟩] ∧
    parse_pos ("3".toList ++ '-' :: "7".toList)
      = .ok [⟨digitsVal "3".toList - 1, digitsVal "7".toList⟩] :=
  ⟨C1_parse_pos_one_based_conversion.1 "12".toList (by decide) (by decide) (by decide),
   C1_parse_pos_one_based_conversion.2.1 "3".toList "7".toList
     (by decide) (by decide) (by decide) (by decide) (by decide)⟩

/-- C3: `parse_pos` returns the ranges in clause order, with no
sorting, merging or deduplication: the output is exactly the list of
the clauses' own ranges in input order; in particular
`parse_pos "3,1" = [[2,3),[0,1)]` and `parse_pos "1,1" = [[0,1),[0,1)]`. -/
theorem C3_parse_pos_order_preserved :
    parse_pos "3,1".toList = .ok [⟨2, 3⟩, ⟨0, 1⟩] ∧
    parse_pos "1,1".toList = .ok [⟨0, 1⟩, ⟨0, 1⟩] ∧
    (∀ (clauses : List (List Char)) (rs : PositionList), clauses ≠ [] →
        List.Forall₂ (fun c r => parseClause c = .ok r) clauses rs →
        parse_pos (joinSep ',' clauses) = .ok rs) := by
  refine ⟨by decide, by decide, ?_⟩
  intro clauses rs hne hf
  have hcomma : ∀ c ∈ clauses, ',' ∉ c := by
    intro c hc
    obtain ⟨r, _, hr⟩ := forall₂_mem_left hf hc
    exact parseClause_ok_comma_not_mem hr
  unfold parse_pos
  rw [splitChar_joinSep ',' clauses hne hcomma]
  exact collectExcept_forall₂ hf

/-- Witness for C3 at the clause list `2,1`: duplicate-free order
preservation, unsorted. -/
theorem C3_witness :
    parse_pos (joinSep ',' ["2".toList, "1".toList]) = .ok [⟨1, 2⟩, ⟨0, 1⟩] :=
  C3_parse_pos_order_preserved.2.2 ["2".toList, "1".toList] [⟨1, 2⟩, ⟨0, 1⟩]
    (by decide)
    (List.Forall₂.cons (by decide) (List.Forall₂.cons (by decide) List.Forall₂.nil))

/-- C4: every range in a successfully parsed `PositionList` satisfies
`start < stop` — no empty and no inverted range, for every spec string
on which `parse_pos` succeeds. -/
theorem C4_parse_pos_ranges_nonempty (s : List Char) (rs : PositionList)
    (h : parse_pos s = .ok rs) : ∀ r ∈ rs, r.start < r.stop := by
  intro r hr
  have hf := collectExcept_ok_forall₂ h
  obtain ⟨c, _, hc⟩ := forall₂_mem_left (List.Forall₂.flip hf) hr
  exact parseClause_ok_start_lt_stop hc

/-- Witness for C4 at `parse_pos "1,3-5"` and its second range. -/
theorem C4_witness : Range.start ⟨2, 5⟩ < Range.stop ⟨2, 5⟩ :=
  C4_parse_pos_ranges_nonempty "1,3-5".toList [⟨0, 1⟩, ⟨2, 5⟩]
    (by decide) ⟨2, 5⟩ (by decide)

/-- C7: extracting with the single full range `[0, len)` returns the
line unchanged, for every line (as a list of Unicode scalar values). -/
theorem C7_extract_chars_full_range_roundtrip (line : List Char) :
    extract_chars line [⟨0, line.length⟩] = line := by
  unfold extract_chars rangeOffsets
  simp only [List.flatMap_cons, List.flatMap_nil, List.append_nil]
  rw [Nat.sub_zero]
  exact filterMap_get?_range'_self line

/-- C2: all three extractors implement the spec's "range walk": ranges
in stored order, offsets ascending, in-bounds offsets appended,
out-of-bounds offsets silently skipped; with the claim's two concrete
examples. -/
theorem C2_extractors_range_walk :
    (∀ (line : List Char) (pos : PositionList),
        extract_chars line pos = specRangeWalk line pos) ∧
    (∀ (record : List (List Char)) (pos : PositionList),
        extract_fields record pos = specRangeWalk record pos) ∧
    (∀ (bytes : List Nat) (pos : PositionList),
        selectedBytes bytes pos = specRangeWalk bytes pos) ∧
    extract_chars "ab".toList [⟨0, 1⟩, ⟨5, 6⟩] = "a".toList ∧
    extract_fields ["a".toList, "b".toList, "c".toList] [⟨1, 3⟩]
      = ["b".toList, "c".toList] := by
  refine ⟨?_, ?_, ?_, by decide, by decide⟩
  · intro line pos
    exact flatMap_eq_specRangeWalk line pos
  · intro record pos
    exact flatMap_eq_specRangeWalk record pos
  · intro bytes pos
    exact flatMap_eq_specRangeWalk bytes pos

end Cutr

namespace Cutr

/-- C5: `parse_pos` rejects `0`, `+1` and `a` with illegal-list-value
errors, rejects `5-2` with the range-order message naming 5 and 2, and
in general fails fast: the first invalid clause (in left-to-right
order) determines the error and no partial result is produced. -/
theorem C5_parse_pos_rejections :
    parse_pos "0".toList = .error (illegalMsg "0".toList) ∧
    parse_pos "+1".toList = .error (illegalMsg "+1".toList) ∧
    parse_pos "a".toList = .error (illegalMsg "a".toList) ∧
    parse_pos "5-2".toList =
      .error "First number in range (5) must be lower than the second number (2)".toList ∧
    (∀ (s : List Char) (pre : List (List Char)) (bad : List Char)
        (rest : List (List Char)) (e : List Char),
        splitChar ',' s = pre ++ bad :: rest →
        (∀ c ∈ pre, (parseClause c).isOk = true) →
        parseClause bad = .error e →
        parse_pos s = .error e) := by
  refine ⟨by decide, by decide, by decide, by decide, ?_⟩
  intro s pre bad rest e hsplit hpre hbad
  unfold parse_pos
  rw [hsplit]
  exact collectExcept_err_first pre bad rest e hpre hbad

/-- Witness for C5: in `1,a,2` the first invalid clause `a` determines
the error even though `1` parsed and `2` would parse. -/
theorem C5_witness :
    parse_pos "1,a,2".toList = .error (illegalMsg "a".toList) :=
  C5_parse_pos_rejections.2.2.2.2 "1,a,2".toList ["1".toList] "a".toList
    ["2".toList] (illegalMsg "a".toList) (by decide) (by decide) (by decide)

/-- C6 counterexample: for the range clause `0-3`, rejected as an
illegal list value, the error carries only the bad endpoint `0`, not
the full clause text `0-3`. -/
theorem C6_counterexample :
    parse_pos "0-3".toList = .error (illegalMsg "0".toList) ∧
    illegalMsg "0".toList ≠ illegalMsg "0-3".toList := by
  exact ⟨by decide, by decide⟩

/-- C6 (amended): a clause rejected as an illegal list value carries
the full clause text verbatim whenever the `N1-N2` regex — whose `\d`
is Unicode `\p{Nd}` — does not match (non-digit content, or a bare
all-digit clause of value zero); but when the regex matches and an
endpoint is rejected, the error carries only that endpoint's text, as
in `0-3`, `1-0` and the Unicode-digit clause `٣-٥`. -/
theorem C6_illegal_value_error_text :
    (∀ c : List Char, ',' ∉ c → isDigits c = false → rangeCaptures c = none →
        parse_pos c = .error (illegalMsg c)) ∧
    (∀ c : List Char, ',' ∉ c → isDigits c = true → digitsVal c = 0 →
        parse_pos c = .error (illegalMsg c)) ∧
    parse_pos "0-3".toList = .error (illegalMsg "0".toList) ∧
    parse_pos "1-0".toList = .error (illegalMsg "0".toList) ∧
    parse_pos "٣-٥".toList = .error (illegalMsg "٣".toList) := by
  refine ⟨?_, ?_, by decide, by decide, by decide⟩
  · intro c hcm hd hrc
    have he : parseClause c = .error (illegalMsg c) := by
      unfold parseClause
      rw [parse_index_err_not_digits c hd]
      dsimp only
      rw [hrc]
    exact parse_pos_single_err hcm he
  · intro c hcm hd h0
    have hrc : rangeCaptures c = none :=
      rangeCaptures_of_no_dash c (not_mem_of_isDigits hd (by decide))
    have he : parseClause c = .error (illegalMsg c) := by
      unfold parseClause
      rw [parse_index_err_zero c hd h0]
      dsimp only
      rw [hrc]
    exact parse_pos_single_err hcm he

/-- Witness for C6 (amended) at the clauses `a` and `00`. -/
theorem C6_witness :
    parse_pos "a".toList = .error (illegalMsg "a".toList) ∧
    parse_pos "00".toList = .error (illegalMsg "00".toList) :=
  ⟨C6_illegal_value_error_text.1 "a".toList (by decide) (by decide) (by decide),
   C6_illegal_value_error_text.2.1 "00".toList (by decide) (by decide) (by decide)⟩

/-- C8: `extract_bytes` walks the ranges over the line's raw bytes and
lossily decodes the selected bytes, so it is total; selecting bytes
`[0,1)` and `[3,5)` of `hello` gives `hlo`, and selecting only the
first byte of the two-byte character `é` yields the replacement
character U+FFFD instead of a failure. -/
theorem C8_extract_bytes_lossy :
    (∀ (line : List Nat) (pos : PositionList),
        extract_bytes line pos = from_utf8_lossy (specRangeWalk line pos)) ∧
    extract_bytes (utf8Encode "hello".toList) [⟨0, 1⟩, ⟨3, 5⟩] = "hlo".toList ∧
    extract_bytes (utf8Encode "é".toList) [⟨0, 1⟩] = [replacementChar] := by
  refine ⟨?_, by decide, by decide⟩
  intro line pos
  unfold extract_bytes
  exact congrArg from_utf8_lossy
    (show selectedBytes line pos = specRangeWalk line pos from
      flatMap_eq_specRangeWalk line pos)

/-- C9: the public value parsers unwrap the result of `parse_pos`, so
every spec string rejected by `parse_pos` makes them panic, and the
error branch of their declared result type is never used. -/
theorem C9_value_parsers_panic_on_err :
    (∀ (input e : List Char), parse_pos input = .error e →
        parse_bytes input = .panicked e ∧ parse_chars input = .panicked e ∧
        parse_fields input = .panicked e) ∧
    (∀ (input msg : List Char),
        parse_bytes input ≠ .ret (.error msg) ∧
        parse_chars input ≠ .ret (.error msg) ∧
        parse_fields input ≠ .ret (.error msg)) := by
  constructor
  · intro input e h
    refine ⟨?_, ?_, ?_⟩ <;>
      simp [parse_bytes, parse_chars, parse_fields, unwrapExcept, h]
  · intro input msg
    cases h : parse_pos input with
    | error e =>
      refine ⟨?_, ?_, ?_⟩ <;>
        simp [parse_bytes, parse_chars, parse_fields, unwrapExcept, h]
    | ok l =>
      refine ⟨?_, ?_, ?_⟩ <;>
        simp [parse_bytes, parse_chars, parse_fields, unwrapExcept, h]

/-- Witness for C9 at the rejected spec `0`. -/
theorem C9_witness :
    parse_bytes "0".toList = .panicked (illegalMsg "0".toList) :=
  (C9_value_parsers_panic_on_err.1 "0".toList (illegalMsg "0".toList)
    (by decide)).1

/-- C10 counterexample: `5-2,` contains an empty clause (trailing
comma), yet `parse_pos` rejects it with the range-order error of the
earlier clause `5-2`, which is not an illegal-list-value error. -/
theorem C10_counterexample :
    ([] ∈ splitChar ',' "5-2,".toList) ∧
    isIllegalValueError (parse_pos "5-2,".toList) = false := by
  exact ⟨by decide, by decide⟩

/-- C10 (amended): every spec string containing an empty clause is
rejected by `parse_pos`; when the empty clause is the leftmost invalid
clause the error is the illegal-list-value error naming the empty
clause; in particular the empty string, `1,,2`, `,2` and `1,` are all
rejected that way. -/
theorem C10_empty_clause_rejected :
    (∀ s : List Char, [] ∈ splitChar ',' s →
        ∃ e, parse_pos s = .error e) ∧
    (∀ (s : List Char) (pre rest : List (List Char)),
        splitChar ',' s = pre ++ [] :: rest →
        (∀ c ∈ pre, (parseClause c).isOk = true) →
        parse_pos s = .error (illegalMsg [])) ∧
    parse_pos "".toList = .error (illegalMsg []) ∧
    parse_pos "1,,2".toList = .error (illegalMsg []) ∧
    parse_pos ",2".toList = .error (illegalMsg []) ∧
    parse_pos "1,".toList = .error (illegalMsg []) := by
  have hempty : parseClause [] = .error (illegalMsg []) := by decide
  refine ⟨?_, ?_, by decide, by decide, by decide, by decide⟩
  · intro s hmem
    show ∃ e, collectExcept parseClause (splitChar ',' s) = .error e
    exact collectExcept_err_of_mem hmem hempty
  · intro s pre rest hsplit hpre
    unfold parse_pos
    rw [hsplit]
    exact collectExcept_err_first pre [] rest (illegalMsg []) hpre hempty

/-- Witness for C10 (amended) at the spec `,2`. -/
theorem C10_witness :
    parse_pos ",2".toList = .error (illegalMsg []) :=
  C10_empty_clause_rejected.2.1 ",2".toList [] ["2".toList]
    (by decide) (by decide)

end Cutr
